import Mathlib

/-!
# Verification of the EVM temporal band-pass filter core

Shallow embedding of `src/c++/filter.hpp` (struct `Filter<T, N>`): the FIR
filter designer `Filter::design` and the stateful filtering operation
`Filter::filter`, together with theorems settling the specification claims.

Modelling conventions:
* A `cv::Mat` video frame (type `CV_32FC3`) is a `Frame α`: a pair of
  dimensions plus a total pixel function over 3 channels.  Pixel arithmetic
  is taken in an arbitrary commutative ring `α` (exact arithmetic stands in
  for IEEE floating point, as the spec states values only up to numerical
  tolerance).
* The member state of `Filter` (`frames_`, `taps_`, `alpha_`,
  `chromaAttenuation_`) is an explicit `EngineState`; `Filter::filter`
  becomes the state-passing function `step` (the `dst` argument is threaded
  explicitly, mirroring the in-out `cv::Mat dst` parameter).
* The `cv::Exception` thrown by OpenCV matrix arithmetic when operand sizes
  disagree (`out_channels[c] += in_channels[c] * tap`) is modelled by the
  `FilterResult.err` outcome: it occurs, inside the full-queue branch,
  exactly when some of the first `N` queued frames has a shape different
  from the incoming frame, and it leaves `dst` unwritten and the queue
  unpopped (the exception fires before `cv::merge` and before `pop_back`).
* `Filter::design` is embedded over `ℝ` with `Real.sin`/`Real.cos`/`π` in
  place of the C library functions (the code computes in `double`).
-/

namespace EVM

/-- A video frame: a 2-D grid of pixels with 3 channels (cv::Mat, CV_32FC3).
The pixel map is total; only coordinates below `rows`/`cols` are meaningful. -/
@[ext]
structure Frame (α : Type) where
  rows : ℕ
  cols : ℕ
  px : ℕ → ℕ → Fin 3 → α

/-- The shape of a frame, as compared by OpenCV elementwise arithmetic. -/
def Frame.shape {α : Type} (f : Frame α) : ℕ × ℕ := (f.rows, f.cols)

/-- The all-zero empty frame, used as a harmless default value. -/
def zeroFrame {α : Type} [Zero α] : Frame α := ⟨0, 0, fun _ _ _ => 0⟩

/-- The mutable members of `Filter<T, N>`: the frame queue `frames_`
(newest first, as `push_front` makes it), the designed coefficients
`taps_` (`N = taps.length`), the magnification factor `alpha_` and the
chroma attenuation `chromaAttenuation_`. -/
structure EngineState (α : Type) where
  frames : List (Frame α)
  taps : List α
  alpha : α
  chroma : α

/-- Outcome of one `Filter::filter` call: `ok produced dst` is a normal
return (the C++ `bool`, plus the value of the `dst` frame after the call),
`err dst` is a propagated OpenCV exception (with `dst` left as it was). -/
inductive FilterResult (α : Type) where
  | ok (produced : Bool) (dst : Frame α)
  | err (dst : Frame α)

section Engine

variable {α : Type} [CommRing α]

/-- Value of `out_channels[c]` at pixel `(i, j)` after the accumulation loop
`for (n = 0; n < N; ++n)`: channel 0 accumulates `in_channels[0] * taps_[n]`,
channels 1 and 2 accumulate `chromaAttenuation_ * in_channels[c] * taps_[n]`.
The recursion walks `taps_` and `frames_` in lockstep, so exactly the first
`taps.length` queued frames are read, as in the loop bound `n < N`. -/
def outPx (chroma : α) : List α → List (Frame α) → Fin 3 → ℕ → ℕ → α
  | t :: ts, f :: fs, c, i, j =>
      (if c = 0 then f.px i j c * t else chroma * f.px i j c * t)
        + outPx chroma ts fs c i j
  | _, _, _, _, _ => 0

/-- The frame written to `dst` by `cv::merge(out_channels, dst)` followed by
`dst *= alpha_`: dimensions of `src` (the channel accumulators are created
with `Frame::zeros(src.size(), CV_32F)`), pixels the accumulated sums scaled
by `alpha_`. -/
def mergedFrame (st : EngineState α) (hist : List (Frame α)) (src : Frame α) :
    Frame α :=
  ⟨src.rows, src.cols, fun i j c => outPx st.chroma st.taps hist c i j * st.alpha⟩

/-- One call of `Filter::filter(src, dst)`.
1. `frames_.push_front(src.clone())` — always, before any check.
2. If `frames_.size() >= taps_.max_size()` (queue full): if all frames read
   by the accumulation loop share `src`'s shape, write the merged amplified
   frame to `dst`, `pop_back` the oldest frame and return `true`; otherwise
   the elementwise `+=` throws (modelled by `FilterResult.err`) with `dst`
   unwritten and no `pop_back`.
3. Otherwise return `false` with `dst` unwritten (still warming up). -/
def step (st : EngineState α) (src dst : Frame α) :
    FilterResult α × EngineState α :=
  let hist := src :: st.frames
  if st.taps.length ≤ hist.length then
    if ∀ f ∈ hist.take st.taps.length, f.shape = src.shape then
      (FilterResult.ok true (mergedFrame st hist src),
       { st with frames := hist.dropLast })
    else
      (FilterResult.err dst, { st with frames := hist })
  else
    (FilterResult.ok false dst, { st with frames := hist })

/-- Caller-level view of one `filter` call: `Except.error ()` is the
propagated exception, `Except.ok none` the `false` (warming-up) return, and
`Except.ok (some out)` the `true` return with the produced frame. -/
def ingest (st : EngineState α) (src : Frame α) :
    Except Unit (Option (Frame α)) × EngineState α :=
  match step st src zeroFrame with
  | (FilterResult.ok true d, st') => (Except.ok (some d), st')
  | (FilterResult.ok false _, st') => (Except.ok none, st')
  | (FilterResult.err _, st') => (Except.error (), st')

/-- Feed a list of frames through the engine one at a time, collecting the
result of every call (the work loop of `main.cpp`). -/
def runEngine : EngineState α → List (Frame α) →
    List (Except Unit (Option (Frame α))) × EngineState α
  | st, [] => ([], st)
  | st, f :: fs =>
      let p := ingest st f
      let q := runEngine p.2 fs
      (p.1 :: q.1, q.2)

/-- A freshly constructed engine: empty queue, designed taps, the two
immutable scale factors. -/
def freshEngine (taps : List α) (alpha chroma : α) : EngineState α :=
  ⟨[], taps, alpha, chroma⟩

/-- Pointwise scaling of a frame by a constant. -/
def scaleFrame (k : α) (f : Frame α) : Frame α :=
  ⟨f.rows, f.cols, fun i j c => k * f.px i j c⟩

/-- Scaling of the whole queued history by a constant. -/
def scaleState (k : α) (st : EngineState α) : EngineState α :=
  { st with frames := st.frames.map (scaleFrame k) }

end Engine

section Design

open Real

/-- `Filter::design(lo, hi, sr)` for filter length `N`, tap index `n`:
with `M = N - 1` (C++ `std::size_t`, so `M / 2` is integer division), the
coefficient is the difference of sincs at `t = π (n - M/2)` (or the limit
value `2 (hi - lo) / sr` at the centre tap `n = M/2`), multiplied by the
Blackman window `0.42 - 0.5 cos(2πn/M) + 0.08 cos(4πn/M)`. -/
noncomputable def design (lo hi sr : ℝ) (N n : ℕ) : ℝ :=
  let M : ℕ := N - 1
  let base : ℝ :=
    if M / 2 = n then 2 * (hi - lo) / sr
    else
      let t : ℝ := Real.pi * ((n : ℝ) - ((M / 2 : ℕ) : ℝ))
      Real.sin (2 * hi / sr * t) / t - Real.sin (2 * lo / sr * t) / t
  base * (0.42 - 0.5 * Real.cos (2 * Real.pi * (n : ℝ) / (M : ℝ))
               + 0.08 * Real.cos (4 * Real.pi * (n : ℝ) / (M : ℝ)))

/-- The construction-time checks of `Filter<T, N>` actually present in the
code: `BOOST_STATIC_ASSERT(N % 2 == 1)`, the two Nyquist assertions
`BOOST_ASSERT(lo < sr / 2)` and `BOOST_ASSERT(hi <= sr / 2)` inside
`design`, and the constructor's symmetry sanity loop
`BOOST_ASSERT_MSG(abs(taps_[i] - taps_[(N-1)-i]) < 1e-99)` for
`i < (N - 1) / 2`.  Construction succeeds exactly when this proposition
holds. -/
def constructionOk (N : ℕ) (lo hi sr : ℝ) : Prop :=
  N % 2 = 1 ∧ lo < sr / 2 ∧ hi ≤ sr / 2 ∧
    ∀ i < (N - 1) / 2, |design lo hi sr N i - design lo hi sr N (N - 1 - i)| < 1e-99

/-- The spec's `FilterSpec` validity predicate, written from the spec's
words: tap count odd and at least 3, `lowCutoffHz < sampleRateHz/2`,
`highCutoffHz ≤ sampleRateHz/2` and `lowCutoffHz ≤ highCutoffHz`. -/
def specValidFilterSpec (N : ℕ) (lo hi sr : ℝ) : Prop :=
  N % 2 = 1 ∧ 3 ≤ N ∧ lo < sr / 2 ∧ hi ≤ sr / 2 ∧ lo ≤ hi

/-- The spec's description of the designed coefficient, written from the
spec's words with real arithmetic throughout: `M = tapCount - 1` as a real
number, centre tap at `n = M/2`, `t = π (n - M/2)`, Blackman window weight
applied in both cases. -/
noncomputable def specDesign (lo hi sr : ℝ) (N n : ℕ) : ℝ :=
  let M : ℝ := (N : ℝ) - 1
  let w : ℝ := 0.42 - 0.5 * Real.cos (2 * Real.pi * (n : ℝ) / M)
                    + 0.08 * Real.cos (4 * Real.pi * (n : ℝ) / M)
  if (n : ℝ) = M / 2 then 2 * (hi - lo) / sr * w
  else
    (Real.sin (2 * hi / sr * (Real.pi * ((n : ℝ) - M / 2))) /
        (Real.pi * ((n : ℝ) - M / 2)) -
      Real.sin (2 * lo / sr * (Real.pi * ((n : ℝ) - M / 2))) /
        (Real.pi * ((n : ℝ) - M / 2))) * w

end Design

section Fixtures

/-- A concrete 1 × 1 test frame with all pixel values 2. -/
def frameA : Frame ℤ := ⟨1, 1, fun _ _ _ => 2⟩

/-- A concrete 2 × 2 test frame (a shape different from `frameA`) with all
pixel values 3. -/
def frameB : Frame ℤ := ⟨2, 2, fun _ _ _ => 3⟩

end Fixtures

section EngineLemmas

variable {α : Type} [CommRing α]

@[simp]
lemma outPx_cons (chroma : α) (t : α) (ts : List α) (f : Frame α)
    (fs : List (Frame α)) (c : Fin 3) (i j : ℕ) :
    outPx chroma (t :: ts) (f :: fs) c i j
      = (if c = 0 then f.px i j c * t else chroma * f.px i j c * t)
          + outPx chroma ts fs c i j := rfl

@[simp]
lemma outPx_nil (chroma : α) (fs : List (Frame α)) (c : Fin 3) (i j : ℕ) :
    outPx chroma [] fs c i j = 0 := rfl

@[simp]
lemma outPx_nil_frames (chroma : α) (t : α) (ts : List α) (c : Fin 3) (i j : ℕ) :
    outPx chroma (t :: ts) [] c i j = 0 := rfl

/-- The accumulated channel value is the chroma attenuation factor (for
channels 1 and 2) times the plain convolution of taps with the history. -/
lemma outPx_eq_attn_sum (chroma : α) (taps : List α) (hist : List (Frame α))
    (c : Fin 3) (i j : ℕ) :
    outPx chroma taps hist c i j
      = (if c = 0 then 1 else chroma) *
          ∑ n ∈ Finset.range taps.length,
            taps.getD n 0 * (hist.getD n zeroFrame).px i j c := by
  induction taps generalizing hist with
  | nil => simp
  | cons t ts ih =>
      cases hist with
      | nil =>
          simp [zeroFrame]
      | cons f fs =>
          rw [outPx_cons, ih fs, List.length_cons, Finset.sum_range_succ']
          simp only [List.getD_cons_succ, List.getD_cons_zero]
          by_cases hc : c = 0 <;> simp [hc] <;> ring

lemma step_warmup (st : EngineState α) (src dst : Frame α)
    (h : st.frames.length + 1 < st.taps.length) :
    step st src dst
      = (FilterResult.ok false dst, { st with frames := src :: st.frames }) := by
  unfold step
  simp only [List.length_cons]
  rw [if_neg (by omega)]

lemma step_full_ok (st : EngineState α) (src dst : Frame α)
    (hlen : st.taps.length ≤ st.frames.length + 1)
    (hsh : ∀ f ∈ (src :: st.frames).take st.taps.length, f.shape = src.shape) :
    step st src dst
      = (FilterResult.ok true (mergedFrame st (src :: st.frames) src),
         { st with frames := (src :: st.frames).dropLast }) := by
  unfold step
  simp only [List.length_cons]
  rw [if_pos (by omega), if_pos hsh]

lemma step_full_err (st : EngineState α) (src dst : Frame α)
    (hlen : st.taps.length ≤ st.frames.length + 1)
    (hbad : ¬ ∀ f ∈ (src :: st.frames).take st.taps.length, f.shape = src.shape) :
    step st src dst
      = (FilterResult.err dst, { st with frames := src :: st.frames }) := by
  unfold step
  simp only [List.length_cons]
  rw [if_pos (by omega), if_neg hbad]

lemma ingest_warmup (st : EngineState α) (src : Frame α)
    (h : st.frames.length + 1 < st.taps.length) :
    ingest st src
      = (Except.ok none, { st with frames := src :: st.frames }) := by
  unfold ingest
  rw [step_warmup st src zeroFrame h]

lemma ingest_full_ok (st : EngineState α) (src : Frame α)
    (hlen : st.taps.length ≤ st.frames.length + 1)
    (hsh : ∀ f ∈ (src :: st.frames).take st.taps.length, f.shape = src.shape) :
    ingest st src
      = (Except.ok (some (mergedFrame st (src :: st.frames) src)),
         { st with frames := (src :: st.frames).dropLast }) := by
  unfold ingest
  rw [step_full_ok st src zeroFrame hlen hsh]

lemma ingest_full_err (st : EngineState α) (src : Frame α)
    (hlen : st.taps.length ≤ st.frames.length + 1)
    (hbad : ¬ ∀ f ∈ (src :: st.frames).take st.taps.length, f.shape = src.shape) :
    ingest st src
      = (Except.error (), { st with frames := src :: st.frames }) := by
  unfold ingest
  rw [step_full_err st src zeroFrame hlen hbad]

@[simp]
lemma runEngine_nil (st : EngineState α) : runEngine st [] = ([], st) := rfl

lemma runEngine_cons (st : EngineState α) (f : Frame α) (fs : List (Frame α)) :
    runEngine st (f :: fs)
      = ((ingest st f).1 :: (runEngine (ingest st f).2 fs).1,
         (runEngine (ingest st f).2 fs).2) := rfl

@[simp]
lemma runEngine_fst_length (st : EngineState α) (l : List (Frame α)) :
    (runEngine st l).1.length = l.length := by
  induction l generalizing st with
  | nil => rfl
  | cons f fs ih => rw [runEngine_cons]; simp [ih]

/-- The result of the `k`-th call in a run is the result of one `ingest`
from the state reached after the first `k` calls. -/
lemma runEngine_res_getD (st : EngineState α) (l : List (Frame α)) (k : ℕ)
    (hk : k < l.length) :
    (runEngine st l).1.getD k (Except.error ())
      = (ingest (runEngine st (l.take k)).2 (l.getD k zeroFrame)).1 := by
  induction l generalizing st k with
  | nil => simp at hk
  | cons f fs ih =>
      cases k with
      | zero => rw [runEngine_cons]; simp
      | succ k =>
          rw [runEngine_cons]
          simp only [List.getD_cons_succ, List.take_succ_cons, runEngine_cons]
          exact ih (ingest st f).2 k (by simpa using hk)

/-- One well-shaped `ingest` from a state satisfying the history invariant:
the immutable members are untouched, the invariant is preserved, the
history length follows `min (len + 1) (N - 1)`, and the call returns
absent during warm-up and a frame once the queue is full. -/
lemma ingest_uniform (st : EngineState α) (src : Frame α) (s : ℕ × ℕ)
    (hg : ∀ f ∈ st.frames, f.shape = s)
    (hlen : st.frames.length ≤ st.taps.length - 1)
    (hsrc : src.shape = s) :
    (ingest st src).2.taps = st.taps ∧
    (ingest st src).2.alpha = st.alpha ∧
    (ingest st src).2.chroma = st.chroma ∧
    (∀ f ∈ (ingest st src).2.frames, f.shape = s) ∧
    (ingest st src).2.frames.length
      = min (st.frames.length + 1) (st.taps.length - 1) ∧
    (st.frames.length + 1 < st.taps.length → (ingest st src).1 = Except.ok none) ∧
    (st.taps.length ≤ st.frames.length + 1 →
      ∃ g, (ingest st src).1 = Except.ok (some g)) := by
  by_cases hfull : st.taps.length ≤ st.frames.length + 1
  · have hshapes : ∀ f ∈ (src :: st.frames).take st.taps.length,
        f.shape = src.shape := by
      intro f hf
      have hf' : f ∈ src :: st.frames := List.take_subset _ _ hf
      rcases List.mem_cons.mp hf' with h | h
      · rw [h]
      · rw [hg f h, hsrc]
    rw [ingest_full_ok st src hfull hshapes]
    refine ⟨rfl, rfl, rfl, ?_, ?_, ?_, ?_⟩
    · intro f hf
      have hf' : f ∈ src :: st.frames := (List.dropLast_sublist _).subset hf
      rcases List.mem_cons.mp hf' with h | h
      · rw [h, hsrc]
      · exact hg f h
    · simp only [List.length_dropLast, List.length_cons]
      omega
    · intro h; omega
    · intro _; exact ⟨_, rfl⟩
  · rw [ingest_warmup st src (by omega)]
    refine ⟨rfl, rfl, rfl, ?_, ?_, ?_, ?_⟩
    · intro f hf
      rcases List.mem_cons.mp hf with h | h
      · rw [h, hsrc]
      · exact hg f h
    · simp only [List.length_cons]; omega
    · intro _; rfl
    · intro h; omega

/-- Running the engine over uniformly shaped frames from a state satisfying
the history invariant: immutable members untouched, invariant preserved,
history length `min (len + inputs) (N - 1)`. -/
lemma run_uniform (s : ℕ × ℕ) (l : List (Frame α)) :
    ∀ st : EngineState α,
      (∀ f ∈ st.frames, f.shape = s) →
      st.frames.length ≤ st.taps.length - 1 →
      (∀ f ∈ l, f.shape = s) →
      (runEngine st l).2.taps = st.taps ∧
      (∀ f ∈ (runEngine st l).2.frames, f.shape = s) ∧
      (runEngine st l).2.frames.length
        = min (st.frames.length + l.length) (st.taps.length - 1) := by
  induction l with
  | nil =>
      intro st hg hlen _
      refine ⟨rfl, hg, ?_⟩
      simp only [runEngine_nil, List.length_nil]
      omega
  | cons f fs ih =>
      intro st hg hlen hl
      have hf : f.shape = s := hl f (List.mem_cons_self f fs)
      obtain ⟨htaps, _, _, hg1, hlen1, _, _⟩ :=
        ingest_uniform st f s hg hlen hf
      rw [runEngine_cons]
      obtain ⟨htaps2, hg2, hlen2⟩ :=
        ih (ingest st f).2 hg1 (by rw [htaps]; omega) fun g hgmem =>
          hl g (List.mem_cons_of_mem f hgmem)
      refine ⟨by rw [htaps2, htaps], hg2, ?_⟩
      rw [hlen2, hlen1, htaps]
      simp only [List.length_cons]
      omega

end EngineLemmas

section ScaleLemmas

variable {α : Type} [CommRing α]

@[simp]
lemma scaleFrame_shape (k : α) (f : Frame α) :
    (scaleFrame k f).shape = f.shape := rfl

@[simp]
lemma scaleState_taps (k : α) (st : EngineState α) :
    (scaleState k st).taps = st.taps := rfl

@[simp]
lemma scaleState_frames (k : α) (st : EngineState α) :
    (scaleState k st).frames = st.frames.map (scaleFrame k) := rfl

/-- The accumulated channel value is homogeneous in the queued frames. -/
lemma outPx_scale (chroma k : α) (taps : List α) (hist : List (Frame α))
    (c : Fin 3) (i j : ℕ) :
    outPx chroma taps (hist.map (scaleFrame k)) c i j
      = k * outPx chroma taps hist c i j := by
  induction taps generalizing hist with
  | nil => simp
  | cons t ts ih =>
      cases hist with
      | nil => simp
      | cons f fs =>
          simp only [List.map_cons, outPx_cons, ih fs, scaleFrame]
          by_cases hc : c = 0 <;> simp [hc] <;> ring

/-- The produced frame is homogeneous in the queued history. -/
lemma mergedFrame_scale (st : EngineState α) (hist : List (Frame α))
    (src : Frame α) (k : α) :
    mergedFrame (scaleState k st) (hist.map (scaleFrame k)) (scaleFrame k src)
      = scaleFrame k (mergedFrame st hist src) := by
  refine Frame.ext rfl rfl ?_
  funext i j c
  show outPx st.chroma st.taps (hist.map (scaleFrame k)) c i j * st.alpha
    = k * (outPx st.chroma st.taps hist c i j * st.alpha)
  rw [outPx_scale]
  ring

/-- One `filter` call commutes with scaling every pixel by a constant. -/
lemma ingest_scale (st : EngineState α) (src : Frame α) (k : α) :
    ingest (scaleState k st) (scaleFrame k src)
      = ((ingest st src).1.map (Option.map (scaleFrame k)),
         scaleState k (ingest st src).2) := by
  by_cases hfull : st.taps.length ≤ st.frames.length + 1
  · by_cases hsh : ∀ f ∈ (src :: st.frames).take st.taps.length,
        f.shape = src.shape
    · have hsh' : ∀ f ∈ (scaleFrame k src :: (scaleState k st).frames).take
          (scaleState k st).taps.length, f.shape = (scaleFrame k src).shape := by
        intro f hf
        rw [scaleState_frames, ← List.map_cons, scaleState_taps,
          ← List.map_take] at hf
        obtain ⟨g, hg, rfl⟩ := List.mem_map.mp hf
        rw [scaleFrame_shape, scaleFrame_shape]
        exact hsh g hg
      rw [ingest_full_ok st src hfull hsh,
        ingest_full_ok (scaleState k st) (scaleFrame k src)
          (by simpa using hfull) hsh']
      refine Prod.ext ?_ ?_
      · show Except.ok (some (mergedFrame (scaleState k st)
            (scaleFrame k src :: st.frames.map (scaleFrame k)) (scaleFrame k src)))
          = Except.ok (some (scaleFrame k (mergedFrame st (src :: st.frames) src)))
        rw [← List.map_cons, mergedFrame_scale]
      · show EngineState.mk
            ((scaleFrame k src :: st.frames.map (scaleFrame k)).dropLast)
            st.taps st.alpha st.chroma
          = EngineState.mk ((src :: st.frames).dropLast.map (scaleFrame k))
            st.taps st.alpha st.chroma
        rw [← List.map_cons, List.map_dropLast]
    · have hsh' : ¬ ∀ f ∈ (scaleFrame k src :: (scaleState k st).frames).take
          (scaleState k st).taps.length, f.shape = (scaleFrame k src).shape := by
        intro hcon
        refine hsh fun f hf => ?_
        have := hcon (scaleFrame k f) ?_
        · simpa using this
        · rw [scaleState_frames, ← List.map_cons, scaleState_taps,
            ← List.map_take]
          exact List.mem_map_of_mem (scaleFrame k) hf
      rw [ingest_full_err st src hfull hsh,
        ingest_full_err (scaleState k st) (scaleFrame k src)
          (by simpa using hfull) hsh']
      refine Prod.ext rfl ?_
      show EngineState.mk (scaleFrame k src :: st.frames.map (scaleFrame k))
          st.taps st.alpha st.chroma
        = EngineState.mk ((src :: st.frames).map (scaleFrame k))
          st.taps st.alpha st.chroma
      rw [List.map_cons]
  · rw [ingest_warmup st src (by omega),
      ingest_warmup (scaleState k st) (scaleFrame k src) (by simpa using (by omega : st.frames.length + 1 < st.taps.length))]
    refine Prod.ext rfl ?_
    show EngineState.mk (scaleFrame k src :: st.frames.map (scaleFrame k))
        st.taps st.alpha st.chroma
      = EngineState.mk ((src :: st.frames).map (scaleFrame k))
        st.taps st.alpha st.chroma
    rw [List.map_cons]

/-- A whole run commutes with scaling every pixel by a constant. -/
lemma run_scale (k : α) (l : List (Frame α)) :
    ∀ st : EngineState α,
      runEngine (scaleState k st) (l.map (scaleFrame k))
        = ((runEngine st l).1.map (Except.map (Option.map (scaleFrame k))),
           scaleState k (runEngine st l).2) := by
  induction l with
  | nil => intro st; rfl
  | cons f fs ih =>
      intro st
      rw [List.map_cons, runEngine_cons, runEngine_cons, ingest_scale]
      simp only [List.map_cons]
      rw [ih (ingest st f).2]

end ScaleLemmas

section DesignLemmas

lemma cos_two_pi_sub (x : ℝ) : Real.cos (2 * Real.pi - x) = Real.cos x := by
  rw [Real.cos_sub, Real.cos_two_pi, Real.sin_two_pi]
  ring

/-- The Blackman window factor `cos (2π n / M)` is invariant under the index
reflection `n ↦ M - n`. -/
lemma cos_ratio_two (x M : ℝ) (hM : M ≠ 0) :
    Real.cos (2 * Real.pi * (M - x) / M) = Real.cos (2 * Real.pi * x / M) := by
  have h : 2 * Real.pi * (M - x) / M = 2 * Real.pi - 2 * Real.pi * x / M := by
    field_simp
    ring
  rw [h, cos_two_pi_sub]

/-- The Blackman window factor `cos (4π n / M)` is invariant under the index
reflection `n ↦ M - n`. -/
lemma cos_ratio_four (x M : ℝ) (hM : M ≠ 0) :
    Real.cos (4 * Real.pi * (M - x) / M) = Real.cos (4 * Real.pi * x / M) := by
  have h : 4 * Real.pi * (M - x) / M
      = 2 * Real.pi + (2 * Real.pi - 4 * Real.pi * x / M) := by
    field_simp
    ring
  rw [h, Real.cos_add, Real.cos_two_pi, Real.sin_two_pi, cos_two_pi_sub]
  ring

/-- A sinc term is invariant under negating `t` (oddness of `sin`). -/
lemma sinc_term_neg (a t : ℝ) :
    Real.sin (a * -t) / -t = Real.sin (a * t) / t := by
  rw [mul_neg, Real.sin_neg, neg_div_neg_eq]

/-- Core symmetry of the designed coefficients: for odd `N` the coefficient
sequence is symmetric about the centre tap. -/
lemma design_symm (lo hi sr : ℝ) (N i : ℕ) (hodd : N % 2 = 1) (hiN : i < N) :
    design lo hi sr N (N - 1 - i) = design lo hi sr N i := by
  obtain ⟨k, rfl⟩ : ∃ k, N = 2 * k + 1 := ⟨N / 2, by omega⟩
  by_cases hik : i = k
  · subst hik
    have e : 2 * i + 1 - 1 - i = i := by omega
    rw [e]
  · have hk1 : 1 ≤ k := by omega
    have hiM : i ≤ 2 * k := by omega
    have e2 : 2 * k + 1 - 1 - i = 2 * k - i := by omega
    have hM : 2 * k + 1 - 1 = 2 * k := by omega
    have hhalf2 : 2 * k / 2 = k := by omega
    rw [e2]
    simp only [design, hM, hhalf2]
    rw [if_neg (show ¬ k = 2 * k - i by omega), if_neg (show ¬ k = i by omega)]
    rw [Nat.cast_sub hiM]
    push_cast
    have hM0 : 2 * (k : ℝ) ≠ 0 := by
      have : (0 : ℝ) < (k : ℝ) := by exact_mod_cast hk1
      positivity
    have htj : Real.pi * (2 * (k : ℝ) - (i : ℝ) - (k : ℝ))
        = -(Real.pi * ((i : ℝ) - (k : ℝ))) := by ring
    rw [htj, sinc_term_neg, sinc_term_neg]
    congr 1
    rw [cos_ratio_two _ _ hM0, cos_ratio_four _ _ hM0]

/-- For odd tap counts, the code's integer-arithmetic centre-tap test and
offsets agree with the spec's real-arithmetic formula tap for tap. -/
lemma design_eq_specDesign (lo hi sr : ℝ) (N n : ℕ) (hodd : N % 2 = 1) :
    design lo hi sr N n = specDesign lo hi sr N n := by
  obtain ⟨k, rfl⟩ : ∃ k, N = 2 * k + 1 := ⟨N / 2, by omega⟩
  have hM : 2 * k + 1 - 1 = 2 * k := by omega
  have hhalf2 : 2 * k / 2 = k := by omega
  have hMr : ((2 * k + 1 : ℕ) : ℝ) - 1 = 2 * (k : ℝ) := by push_cast; ring
  simp only [design, specDesign, hM, hhalf2]
  rw [hMr]
  have hr : 2 * (k : ℝ) / 2 = (k : ℝ) := by ring
  rw [hr]
  by_cases h : k = n
  · rw [if_pos h, if_pos (show (n : ℝ) = (k : ℝ) by exact_mod_cast h.symm)]
    push_cast
    ring
  · rw [if_neg h,
      if_neg (show ¬ (n : ℝ) = (k : ℝ) from
        fun hc => h (Nat.cast_inj.mp hc).symm)]
    push_cast
    ring

/-- The symmetry sanity assertion in the constructor never fires for odd
`N`: construction succeeds exactly when the static oddness assertion and
the two Nyquist assertions hold. -/
lemma constructionOk_iff (N : ℕ) (lo hi sr : ℝ) :
    constructionOk N lo hi sr ↔ (N % 2 = 1 ∧ lo < sr / 2 ∧ hi ≤ sr / 2) := by
  constructor
  · rintro ⟨h1, h2, h3, _⟩
    exact ⟨h1, h2, h3⟩
  · rintro ⟨h1, h2, h3⟩
    refine ⟨h1, h2, h3, fun i hi2 => ?_⟩
    have hiN : i < N := by omega
    rw [design_symm lo hi sr N i h1 hiN]
    simp only [sub_self, abs_zero]
    norm_num

end DesignLemmas

section Claims

/-- State reached from a fresh engine after the first `i` of a uniformly
shaped input list: taps unchanged, shapes preserved, history length
`min i (N - 1)`. -/
lemma fresh_state_after {α : Type} [CommRing α] (taps : List α) (a c : α)
    (l : List (Frame α)) (s : ℕ × ℕ) (hs : ∀ f ∈ l, f.shape = s) (i : ℕ)
    (hil : i ≤ l.length) :
    (runEngine (freshEngine taps a c) (l.take i)).2.taps = taps ∧
    (∀ f ∈ (runEngine (freshEngine taps a c) (l.take i)).2.frames, f.shape = s) ∧
    (runEngine (freshEngine taps a c) (l.take i)).2.frames.length
      = min i (taps.length - 1) := by
  have htake : ∀ f ∈ l.take i, f.shape = s :=
    fun f hf => hs f (List.take_subset i l hf)
  obtain ⟨h1, h2, h3⟩ := run_uniform s (l.take i) (freshEngine taps a c)
    (by intro f hf; simp [freshEngine] at hf) (by simp [freshEngine]) htake
  refine ⟨by rw [h1]; rfl, h2, ?_⟩
  rw [h3]
  have e1 : (freshEngine taps a c).frames.length = 0 := rfl
  have e2 : (freshEngine taps a c).taps.length = taps.length := rfl
  rw [e1, e2, List.length_take]
  omega

/-- C1: once the history is full, a `filter` call produces a frame of the
input's shape whose every pixel, in every channel `c`, equals
`alpha * attn_c * Σ_{n < N} tap[n] * history[n][c]`, where `attn` is `1` on
the luminance channel and the chroma attenuation on the two chrominance
channels, and `history[0]` is the just-ingested frame (newest first). -/
theorem c1_steady_output_formula {α : Type} [CommRing α]
    (st : EngineState α) (src : Frame α)
    (hfull : st.taps.length ≤ (src :: st.frames).length)
    (hsh : ∀ f ∈ (src :: st.frames).take st.taps.length, f.shape = src.shape) :
    ∃ out, (ingest st src).1 = Except.ok (some out)
      ∧ out.shape = src.shape
      ∧ ∀ (i j : ℕ) (c : Fin 3),
          out.px i j c
            = st.alpha * (if c = 0 then 1 else st.chroma) *
                ∑ n ∈ Finset.range st.taps.length,
                  st.taps.getD n 0 * ((src :: st.frames).getD n zeroFrame).px i j c := by
  have hfull' : st.taps.length ≤ st.frames.length + 1 := by
    simpa using hfull
  rw [ingest_full_ok st src hfull' hsh]
  refine ⟨_, rfl, rfl, ?_⟩
  intro i j c
  show outPx st.chroma st.taps (src :: st.frames) c i j * st.alpha = _
  rw [outPx_eq_attn_sum]
  ring

/-- Witness for C1 at a concrete full queue over `ℤ`. -/
theorem c1_steady_output_formula_witness :
    (([1, 2, 3] : List ℤ).length
        ≤ (frameA :: (EngineState.mk [frameA, frameA] ([1, 2, 3] : List ℤ) 50 1).frames).length) ∧
    (∀ f ∈ (frameA :: (EngineState.mk [frameA, frameA] ([1, 2, 3] : List ℤ) 50 1).frames).take
        ([1, 2, 3] : List ℤ).length, f.shape = frameA.shape) ∧
    ∃ out,
      (ingest (EngineState.mk [frameA, frameA] ([1, 2, 3] : List ℤ) 50 1) frameA).1
          = Except.ok (some out)
      ∧ out.shape = frameA.shape
      ∧ ∀ (i j : ℕ) (c : Fin 3),
          out.px i j c
            = (50 : ℤ) * (if c = 0 then 1 else 1) *
                ∑ n ∈ Finset.range ([1, 2, 3] : List ℤ).length,
                  ([1, 2, 3] : List ℤ).getD n 0
                    * ((frameA :: [frameA, frameA]).getD n zeroFrame).px i j c :=
  ⟨by decide, by decide,
    c1_steady_output_formula (EngineState.mk [frameA, frameA] [1, 2, 3] 50 1)
      frameA (by decide) (by decide)⟩

/-- C3: from a fresh engine fed uniformly shaped frames, each of the first
`N - 1` calls returns absent and the `N`-th call returns a frame. -/
theorem c3_warmup_count {α : Type} [CommRing α] (taps : List α) (a c : α)
    (l : List (Frame α)) (s : ℕ × ℕ) (hN : 0 < taps.length)
    (hs : ∀ f ∈ l, f.shape = s) (hlen : taps.length ≤ l.length) :
    (∀ i < taps.length - 1,
        (runEngine (freshEngine taps a c) l).1.getD i (Except.error ())
          = Except.ok none) ∧
    (∃ g, (runEngine (freshEngine taps a c) l).1.getD (taps.length - 1)
        (Except.error ()) = Except.ok (some g)) := by
  constructor
  · intro i hi2
    have hil : i < l.length := by omega
    rw [runEngine_res_getD _ l i hil]
    obtain ⟨htaps, hg, hlen2⟩ := fresh_state_after taps a c l s hs i (le_of_lt hil)
    have hsrc : (l.getD i zeroFrame).shape = s := by
      rw [List.getD_eq_getElem l zeroFrame hil]
      exact hs _ (List.getElem_mem hil)
    obtain ⟨_, _, _, _, _, hwarm, _⟩ :=
      ingest_uniform _ (l.getD i zeroFrame) s hg (by rw [hlen2, htaps]; omega) hsrc
    apply hwarm
    rw [hlen2, htaps]
    omega
  · have hil : taps.length - 1 < l.length := by omega
    rw [runEngine_res_getD _ l (taps.length - 1) hil]
    obtain ⟨htaps, hg, hlen2⟩ :=
      fresh_state_after taps a c l s hs (taps.length - 1) (le_of_lt hil)
    have hsrc : (l.getD (taps.length - 1) zeroFrame).shape = s := by
      rw [List.getD_eq_getElem l zeroFrame hil]
      exact hs _ (List.getElem_mem hil)
    obtain ⟨_, _, _, _, _, _, hfull⟩ :=
      ingest_uniform _ (l.getD (taps.length - 1) zeroFrame) s hg
        (by rw [hlen2, htaps]; omega) hsrc
    apply hfull
    rw [hlen2, htaps]
    omega

/-- Witness for C3 at a concrete three-tap run over `ℤ`. -/
theorem c3_warmup_count_witness :
    (0 < ([1, 1, 1] : List ℤ).length) ∧
    (∀ f ∈ [frameA, frameA, frameA], f.shape = ((1, 1) : ℕ × ℕ)) ∧
    (([1, 1, 1] : List ℤ).length ≤ ([frameA, frameA, frameA] : List (Frame ℤ)).length) ∧
    ((∀ i < ([1, 1, 1] : List ℤ).length - 1,
        (runEngine (freshEngine ([1, 1, 1] : List ℤ) 50 1)
          [frameA, frameA, frameA]).1.getD i (Except.error ())
          = Except.ok none) ∧
      (∃ g, (runEngine (freshEngine ([1, 1, 1] : List ℤ) 50 1)
          [frameA, frameA, frameA]).1.getD (([1, 1, 1] : List ℤ).length - 1)
          (Except.error ()) = Except.ok (some g))) :=
  ⟨by decide, by decide, by decide,
    c3_warmup_count [1, 1, 1] 50 1 [frameA, frameA, frameA] (1, 1)
      (by decide) (by decide) (by decide)⟩

/-- C7: from a fresh engine fed uniformly shaped frames, every call from the
`N`-th onwards returns a frame — the engine never reverts to absent. -/
theorem c7_steady_cadence {α : Type} [CommRing α] (taps : List α) (a c : α)
    (l : List (Frame α)) (s : ℕ × ℕ) (hN : 0 < taps.length)
    (hs : ∀ f ∈ l, f.shape = s) :
    ∀ i, taps.length - 1 ≤ i → i < l.length →
      ∃ g, (runEngine (freshEngine taps a c) l).1.getD i (Except.error ())
        = Except.ok (some g) := by
  intro i h1 h2
  rw [runEngine_res_getD _ l i h2]
  obtain ⟨htaps, hg, hlen2⟩ := fresh_state_after taps a c l s hs i (le_of_lt h2)
  have hsrc : (l.getD i zeroFrame).shape = s := by
    rw [List.getD_eq_getElem l zeroFrame h2]
    exact hs _ (List.getElem_mem h2)
  obtain ⟨_, _, _, _, _, _, hfull⟩ :=
    ingest_uniform _ (l.getD i zeroFrame) s hg (by rw [hlen2, htaps]; omega) hsrc
  apply hfull
  rw [hlen2, htaps]
  omega

/-- Witness for C7 at a concrete four-frame run over `ℤ`. -/
theorem c7_steady_cadence_witness :
    (0 < ([1, 1, 1] : List ℤ).length) ∧
    (∀ f ∈ [frameA, frameA, frameA, frameA], f.shape = ((1, 1) : ℕ × ℕ)) ∧
    (([1, 1, 1] : List ℤ).length - 1 ≤ 3) ∧
    (3 < ([frameA, frameA, frameA, frameA] : List (Frame ℤ)).length) ∧
    (∃ g, (runEngine (freshEngine ([1, 1, 1] : List ℤ) 50 1)
        [frameA, frameA, frameA, frameA]).1.getD 3 (Except.error ())
        = Except.ok (some g)) :=
  ⟨by decide, by decide, by decide, by decide,
    c7_steady_cadence [1, 1, 1] 50 1 [frameA, frameA, frameA, frameA] (1, 1)
      (by decide) (by decide) 3 (by decide) (by decide)⟩

/-- C9: For every constant `k` and every input frame sequence, scaling every
pixel value of every input frame by `k` scales every pixel value of every
output frame by exactly `k` (the filter is linear in its input). -/
theorem c9_linearity {α : Type} [CommRing α] (taps : List α) (a c k : α)
    (l : List (Frame α)) :
    (runEngine (freshEngine taps a c) (l.map (scaleFrame k))).1
      = ((runEngine (freshEngine taps a c) l).1).map
          (Except.map (Option.map (scaleFrame k))) := by
  have h := run_scale k l (freshEngine taps a c)
  have hfresh : scaleState k (freshEngine taps a c) = freshEngine taps a c := rfl
  rw [hfresh] at h
  rw [h]

/-- C10: For every `filter` call made while warming up (queue not yet full
after the push), the only state change is that a copy of the input frame is
appended at the front of the history; nothing is evicted, the taps,
magnification factor and chroma attenuation are unchanged, the call returns
`false` and the caller's destination frame is not written. -/
theorem c10_warmup_effect {α : Type} [CommRing α] (st : EngineState α)
    (src dst : Frame α) (h : st.frames.length + 1 < st.taps.length) :
    step st src dst
      = (FilterResult.ok false dst, { st with frames := src :: st.frames }) :=
  step_warmup st src dst h

/-- Witness for C10 at a concrete warming-up state. -/
theorem c10_warmup_effect_witness :
    ((freshEngine ([1, 1, 1] : List ℤ) 50 1).frames.length + 1
        < (freshEngine ([1, 1, 1] : List ℤ) 50 1).taps.length) ∧
    step (freshEngine ([1, 1, 1] : List ℤ) 50 1) frameA frameB
      = (FilterResult.ok false frameB,
         { freshEngine ([1, 1, 1] : List ℤ) 50 1 with frames := [frameA] }) :=
  ⟨by decide, c10_warmup_effect (freshEngine [1, 1, 1] 50 1) frameA frameB
    (by decide)⟩

/-- C5 counterexample: ingesting a frame whose dimensions differ from the
established shape, during warm-up, does not raise any error (the call
returns absent) and the malformed frame IS added to the history — contrary
to the claim that every such call raises `FrameShapeMismatch` and leaves
the state unchanged. -/
theorem c5_counterexample :
    frameB.shape ≠ frameA.shape ∧
    (ingest (ingest (freshEngine ([1, 1, 1] : List ℤ) 50 1) frameA).2 frameB).1
        = Except.ok none ∧
    (ingest (ingest (freshEngine ([1, 1, 1] : List ℤ) 50 1) frameA).2 frameB).2.frames
        = [frameB, frameA] :=
  ⟨by decide, rfl, rfl⟩

/-- C5 amended: `filter` performs no shape validation of its own; the
incoming frame is always appended to the history first.  During warm-up a
mismatched frame is silently accepted.  Once the queue is full, the
elementwise matrix arithmetic fails (an error propagated from the matrix
layer, not a dedicated `FrameShapeMismatch`), and it does so only after the
malformed frame was added to the history and without evicting the oldest
frame; the destination frame is not written. -/
theorem c5_amended {α : Type} [CommRing α] (st : EngineState α)
    (src dst : Frame α)
    (hlen : st.taps.length ≤ st.frames.length + 1)
    (hbad : ¬ ∀ f ∈ (src :: st.frames).take st.taps.length,
        f.shape = src.shape) :
    step st src dst
      = (FilterResult.err dst, { st with frames := src :: st.frames }) :=
  step_full_err st src dst hlen hbad

/-- Witness for the amended C5 at a concrete full, mismatched state. -/
theorem c5_amended_witness :
    ((EngineState.mk [frameA, frameA] ([1, 1, 1] : List ℤ) 50 1).taps.length
        ≤ (EngineState.mk [frameA, frameA] ([1, 1, 1] : List ℤ) 50 1).frames.length + 1) ∧
    (¬ ∀ f ∈ (frameB :: (EngineState.mk [frameA, frameA] ([1, 1, 1] : List ℤ) 50 1).frames).take
          (EngineState.mk [frameA, frameA] ([1, 1, 1] : List ℤ) 50 1).taps.length,
        f.shape = frameB.shape) ∧
    step (EngineState.mk [frameA, frameA] ([1, 1, 1] : List ℤ) 50 1) frameB frameA
      = (FilterResult.err frameA,
         { EngineState.mk [frameA, frameA] ([1, 1, 1] : List ℤ) 50 1 with
            frames := [frameB, frameA, frameA] }) :=
  ⟨by decide, by decide,
    c5_amended (EngineState.mk [frameA, frameA] [1, 1, 1] 50 1) frameB frameA
      (by decide) (by decide)⟩

/-- C8 counterexample: with mismatched frames in the stream, a failed call
leaves the malformed frame in the history and skips the eviction, so the
history length exceeds the tap count — contrary to the claim that the
length never exceeds `tapCount` at any point. -/
theorem c8_counterexample :
    3 < (runEngine (freshEngine ([1, 1, 1] : List ℤ) 50 1)
          [frameA, frameA, frameA, frameB, frameB]).2.frames.length := by
  decide

/-- C8 amended: as long as every ingested frame has the same shape, after
any number of calls the history holds exactly `min k (tapCount - 1)` frames
between calls (so exactly `tapCount - 1` once warmed up), and even the
transient queue during a call (one more than between calls) never exceeds
`tapCount`. -/
theorem c8_amended {α : Type} [CommRing α] (taps : List α) (a c : α)
    (l : List (Frame α)) (s : ℕ × ℕ)
    (hN : 0 < taps.length) (hs : ∀ f ∈ l, f.shape = s) :
    ∀ k ≤ l.length,
      (runEngine (freshEngine taps a c) (l.take k)).2.frames.length
          = min k (taps.length - 1) ∧
      (runEngine (freshEngine taps a c) (l.take k)).2.frames.length + 1
          ≤ taps.length := by
  intro k hk
  have htake : ∀ f ∈ l.take k, f.shape = s := fun f hf => hs f (List.take_subset k l hf)
  obtain ⟨_, _, hlen⟩ := run_uniform s (l.take k) (freshEngine taps a c)
    (by intro f hf; simp [freshEngine] at hf) (by simp [freshEngine]) htake
  rw [hlen]
  have h1 : (freshEngine taps a c).frames.length = 0 := rfl
  have h2 : (freshEngine taps a c).taps.length = taps.length := rfl
  rw [h1, h2, List.length_take]
  omega

/-- Witness for the amended C8 at a concrete uniform run. -/
theorem c8_amended_witness :
    (0 < ([1, 1, 1] : List ℤ).length) ∧
    (∀ f ∈ [frameA, frameA, frameA, frameA], f.shape = ((1, 1) : ℕ × ℕ)) ∧
    (4 ≤ ([frameA, frameA, frameA, frameA] : List (Frame ℤ)).length) ∧
    ((runEngine (freshEngine ([1, 1, 1] : List ℤ) 50 1)
        ([frameA, frameA, frameA, frameA].take 4)).2.frames.length
          = min 4 (([1, 1, 1] : List ℤ).length - 1) ∧
      (runEngine (freshEngine ([1, 1, 1] : List ℤ) 50 1)
        ([frameA, frameA, frameA, frameA].take 4)).2.frames.length + 1
          ≤ ([1, 1, 1] : List ℤ).length) :=
  ⟨by decide, by decide, by decide,
    c8_amended [1, 1, 1] 50 1 [frameA, frameA, frameA, frameA] (1, 1)
      (by decide) (by decide) 4 (by decide)⟩

/-- C2: for every odd tap count and every tap index, the designed
coefficient equals the spec's formula: `2 (hi - lo) / sr` at the centre tap
`n = M/2`, the difference of sincs at `t = π (n - M/2)` elsewhere, in both
cases multiplied by the Blackman window weight. -/
theorem c2_design_coefficient (lo hi sr : ℝ) (N n : ℕ) (hodd : N % 2 = 1) :
    design lo hi sr N n = specDesign lo hi sr N n :=
  design_eq_specDesign lo hi sr N n hodd

/-- Witness for C2 at a concrete five-tap design. -/
theorem c2_design_coefficient_witness :
    (5 % 2 = 1) ∧ design 1 2 30 5 2 = specDesign 1 2 30 5 2 :=
  ⟨by decide, c2_design_coefficient 1 2 30 5 2 (by decide)⟩

/-- C4: for every odd tap count the designed coefficient sequence is
symmetric, `tap[i] = tap[N-1-i]` — exactly, hence in particular within the
claimed `1e-9` relative tolerance. -/
theorem c4_tap_symmetry (lo hi sr : ℝ) (N i : ℕ) (hodd : N % 2 = 1)
    (hiN : i < N) :
    design lo hi sr N i = design lo hi sr N (N - 1 - i) ∧
    |design lo hi sr N i - design lo hi sr N (N - 1 - i)|
      ≤ 1e-9 * |design lo hi sr N i| := by
  have h := design_symm lo hi sr N i hodd hiN
  refine ⟨h.symm, ?_⟩
  rw [h, sub_self, abs_zero]
  positivity

/-- Witness for C4 at a concrete three-tap design. -/
theorem c4_tap_symmetry_witness :
    (3 % 2 = 1) ∧ (0 < 3) ∧
    (design 1 2 30 3 0 = design 1 2 30 3 (3 - 1 - 0) ∧
      |design 1 2 30 3 0 - design 1 2 30 3 (3 - 1 - 0)|
        ≤ 1e-9 * |design 1 2 30 3 0|) :=
  ⟨by decide, by decide, c4_tap_symmetry 1 2 30 3 0 (by decide) (by decide)⟩

/-- C6 counterexample: the spec's claimed construction-failure condition is
not equivalent to the code's checks: with `lo = 10 > hi = 5` (and
`sr = 30`, three taps) every assertion in the code passes and construction
succeeds, while the spec's precondition `lowCutoffHz ≤ highCutoffHz` is
violated, so the claimed iff fails at this input. -/
theorem c6_counterexample :
    constructionOk 3 10 5 30 ∧ ¬ specValidFilterSpec 3 10 5 30 := by
  constructor
  · rw [constructionOk_iff 3 10 5 30]
    norm_num
  · intro h
    obtain ⟨_, _, _, _, hle⟩ := h
    norm_num at hle

/-- C6 amended: construction fails exactly when the checks actually present
in the code fail — tap count odd (compile-time), `lo < sr/2`, `hi ≤ sr/2`
(the constructor's symmetry assertion never fires) — and neither
`lo ≤ hi` nor `tapCount ≥ 3` is checked; the spec's concrete rejection
scenario `low=20, high=25, sampleRate=30` (with the repository's 119 taps)
does fail, while the unchecked `lo > hi` case constructs successfully. -/
theorem c6_amended :
    (∀ (N : ℕ) (lo hi sr : ℝ),
        constructionOk N lo hi sr ↔ (N % 2 = 1 ∧ lo < sr / 2 ∧ hi ≤ sr / 2)) ∧
    ¬ constructionOk 119 20 25 30 ∧
    constructionOk 3 10 5 30 := by
  refine ⟨constructionOk_iff, ?_, ?_⟩
  · intro h
    rcases (constructionOk_iff 119 20 25 30).mp h with ⟨_, h2, _⟩
    norm_num at h2
  · rw [constructionOk_iff 3 10 5 30]
    norm_num

/-- Witness for the amended C6: a concrete spec accepted by construction,
obtained through the equivalence. -/
theorem c6_amended_witness : constructionOk 3 1 2 30 :=
  (c6_amended.1 3 1 2 30).mpr ⟨by decide, by norm_num, by norm_num⟩

end Claims

end EVM
